import Mathlib

/-!
Shallow embedding of the os2 kernel excerpt:
  - `src/kernel/memory/paging/e820.rs` (the E820 memory-map reconciliation),
  - `src/kernel/src/sched/user.rs` (fast-syscall MSR setup and the user-mode switch),
  - `src/kernel/process/user.rs` (unimplemented stubs).
Machine integers (`u64`, `u32`, `u16`, `usize`) are modelled as `Nat`, with an
explicit `% 2 ^ w` at the places where the source arithmetic can wrap in a
release build. Code paths that panic are modelled with `Option` (`none` =
panic).
-/

/-- One entry of the firmware E820 table: `{base: u64, length: u64,
region_type: u32, acpi: u32}` (`MemoryRegion` in `e820.rs`). -/
structure MemoryRegion where
  base : Nat
  length : Nat
  region_type : Nat
  acpi : Nat
deriving DecidableEq

/-- `MemoryRegion::start_addr`: the start address of the region. -/
def MemoryRegion.start_addr (r : MemoryRegion) : Nat := r.base

/-- `MemoryRegion::len`: the length of the region in bytes. -/
def MemoryRegion.len (r : MemoryRegion) : Nat := r.length

/-- `MemoryRegion::end_addr`: `self.base + self.length` computed on `u64`,
hence modulo `2 ^ 64` (release-mode wrapping; the source itself notes the
computation breaks at the top of the address space). -/
def MemoryRegion.end_addr (r : MemoryRegion) : Nat := (r.base + r.length) % 2 ^ 64

/-- First stage of `E820Info::read`: take the first `memory_map_count` table
entries, keep those of non-zero length, and collect
`(start_addr, end_addr, region_type)`. -/
def e820Triples (count : Nat) (table : List MemoryRegion) : List (Nat × Nat × Nat) :=
  ((table.take count).filter fun r => decide (0 < r.len)).map
    fun r => (r.start_addr, r.end_addr, r.region_type)

/-- Ordered duplicate-free insertion: the model of `BTreeSet<u64>::insert`. -/
def setInsert (x : Nat) : List Nat → List Nat
  | [] => [x]
  | y :: ys =>
    if x < y then x :: y :: ys
    else if x = y then y :: ys
    else y :: setInsert x ys

/-- The `endpoints` set of `E820Info::read`: every start and every end of the
collected triples, as an ascending duplicate-free list. -/
def endpointsOf (info : List (Nat × Nat × Nat)) : List Nat :=
  info.foldl (fun s t => setInsert t.2.1 (setInsert t.1 s)) []

/-- Split one record `(start, end, ty)` at the endpoints inside it: `mid`
collects the endpoints `p` with `start ≤ p ≤ end`, and the pieces are the
consecutive pairs of `mid`, each tagged with `ty`. When `mid` is empty (a
record whose `u64` end wrapped below its start) the loop bound
`0..mid.len() - 1` in the source underflows `usize` and the body then indexes
out of bounds; that panic is modelled as `none`. -/
def regionPieces (endpoints : List Nat) (t : Nat × Nat × Nat) :
    Option (List (Nat × Nat × Nat)) :=
  match endpoints.filter fun p => decide (t.1 ≤ p) && decide (p ≤ t.2.1) with
  | [] => none
  | m :: ms => some (((m :: ms).zip ms).map fun pq => (pq.1, pq.2, t.2.2))

/-- The `flat_map` of `E820Info::read`: concatenate the pieces of every
record, propagating a panic from any of them. -/
def collectPieces (endpoints : List Nat) :
    List (Nat × Nat × Nat) → Option (List (Nat × Nat × Nat))
  | [] => some []
  | t :: ts =>
    match regionPieces endpoints t, collectPieces endpoints ts with
    | some ps, some rest => some (ps ++ rest)
    | _, _ => none

/-- Stable insertion of a triple into a list already sorted by start address:
elements with a strictly smaller start stay in front, so elements with equal
starts keep their original relative order. -/
def insertByStart (t : Nat × Nat × Nat) :
    List (Nat × Nat × Nat) → List (Nat × Nat × Nat)
  | [] => [t]
  | u :: us => if u.1 < t.1 then u :: insertByStart t us else t :: u :: us

/-- The `info.sort_by_key(start)` step, modelled as a stable insertion sort. -/
def sortByStart (l : List (Nat × Nat × Nat)) : List (Nat × Nat × Nat) :=
  l.foldr insertByStart []

/-- The final loop of `E820Info::read`: for each endpoint in ascending order,
drain (`drain_filter`) the fragments that begin exactly there; if there is at
least one, and every one of them is non-empty (`s < e`) and of the usable type,
keep `(s, e - 1)` built from the first such fragment. -/
def drainLoop : List Nat → List (Nat × Nat × Nat) → List (Nat × Nat)
  | [], _ => []
  | p :: ps, info =>
    (match info.filter fun t => t.1 == p with
      | [] => []
      | t :: ts =>
        if (t :: ts).all fun u => decide (u.1 < u.2.1) && (u.2.2 == 1) then
          [(t.1, t.2.1 - 1)]
        else []) ++
    drainLoop ps (info.filter fun t => !(t.1 == p))

/-- Modelled from the spec: `PhysAddr::align_up(4096)` of the external
`x86_64` crate — round an address up to the nearest page boundary. -/
def alignUp4K (a : Nat) : Nat := (a + 4095) / 4096 * 4096

/-- Modelled from the spec: `PhysAddr::align_down(4096)` of the external
`x86_64` crate — round an address down to the nearest page boundary. -/
def alignDown4K (a : Nat) : Nat := a / 4096 * 4096

/-- The safe wrapper produced by `E820Info::read`: the list of
`(start_frame, end_frame)` pairs (both inclusive). -/
structure E820Info where
  regions : List (Nat × Nat)
deriving DecidableEq

/-- `E820Info::read`, as a function of the firmware state (`memory_map_count`
and the `memory_map` table): collect the non-empty records, split them at all
endpoints, sort, classify each endpoint-aligned fragment group, convert the
usable byte ranges to inclusive frame ranges (start rounded up, inclusive end
rounded down), and drop ranges whose rounded start exceeds their rounded end.
`none` models a panic. -/
def E820Info.read (count : Nat) (table : List MemoryRegion) : Option E820Info :=
  let info := e820Triples count table
  let endpoints := endpointsOf info
  match collectPieces endpoints info with
  | none => none
  | some pieces =>
    let info2 := sortByStart pieces
    let byteRanges := drainLoop endpoints info2
    some ⟨(byteRanges.map fun r => (alignUp4K r.1 / 4096, alignDown4K r.2 / 4096)).filter
      fun r => decide (r.1 ≤ r.2)⟩

/-- `E820Info::num_phys_pages`: the sum of `end - start + 1` over the stored
frame ranges. -/
def E820Info.num_phys_pages (i : E820Info) : Nat :=
  (i.regions.map fun r => r.2 - r.1 + 1).sum

/-- Modelled from the spec: a `VirtualMemoryRegion` as seen through the two
accessors `switch_to_user` uses — `start()` (start virtual address) and
`len()` (length of the declared span in bytes). The defining module
(`memory`) is not part of this excerpt. -/
structure VirtualMemoryRegion where
  start : Nat
  len : Nat
deriving DecidableEq

/-- Modelled from the spec: a capability handle is an opaque token; the
capability table that `with` and the unwrap go through is not part of this
excerpt, so handles are bare tokens resolved by an explicit map. -/
abbrev ResourceHandle := Nat

/-- The target stack pointer computed by `switch_to_user` before the mode
switch: resolve the stack handle to its region and compute
`region.start().offset(region.len())`, i.e. `start + len` in 64-bit pointer
arithmetic. -/
def switch_to_user_rsp (resolve : ResourceHandle → VirtualMemoryRegion)
    (stack : ResourceHandle) : Nat :=
  ((resolve stack).start + (resolve stack).len) % 2 ^ 64

/-- The value `init` writes to the STAR MSR (0xC000_0081):
`((kernel_cs.index() * 8) << 32) | ((user_ss.index() * 8 - 8) << 48)`,
where the two bases are computed in `u16` arithmetic (wrapping modulo
`2 ^ 16` in a release build) and then widened to `u64`. -/
def star_value (kcs_index uss_index : Nat) : Nat :=
  ((kcs_index * 8 % 2 ^ 16) <<< 32) |||
    (((uss_index * 8 % 2 ^ 16 + (2 ^ 16 - 8)) % 2 ^ 16) <<< 48)

/-- `process::user::load_user_code_section`: the body is `unimplemented!()`,
an unconditional panic, modelled as `none`. -/
def process_load_user_code_section : Option (ResourceHandle × Nat) := none

/-- `process::user::allocate_user_stack`: the body is `unimplemented!()`,
an unconditional panic, modelled as `none`. -/
def process_allocate_user_stack : Option ResourceHandle := none

/-- `process::user::switch_to_user`: the body is `unimplemented!()`, an
unconditional panic, modelled as `none` (the declared return type `!` is
modelled as `Empty`, so a non-panicking result is impossible anyway). -/
def process_switch_to_user (code stack : ResourceHandle) : Option Empty := none

/-! Claim theorems for the concrete, fully evaluated cases, and the two
`sched/user.rs` computations. -/

/-- C1: the conservative-intersection property fails on the code. With record
A = [0, 100) usable and record B = [50, 150) reserved (type 2), `read`
produces the frame range (0, 0): frame 0 covers bytes [0, 4096), which
includes byte 50, a byte covered by the non-usable record B. The claim says
the frame containing byte 50 (frame 50 / 4096 = 0) must lie in no output
range. -/
theorem c1_overlap_reserved_frame_kept :
    E820Info.read 2 [⟨0, 100, 1, 0⟩, ⟨50, 100, 2, 0⟩] = some ⟨[(0, 0)]⟩ ∧
    (⟨50, 100, 2, 0⟩ : MemoryRegion).start_addr ≤ 50 ∧
    50 < (⟨50, 100, 2, 0⟩ : MemoryRegion).end_addr ∧
    (⟨50, 100, 2, 0⟩ : MemoryRegion).region_type ≠ 1 ∧
    50 / 4096 = 0 := by decide

/-- C2: the page-rounding step does keep a partial page. A single usable
record [0, 100) yields the output frame range (0, 0), and frame 0 spans
bytes [0, 4096), which does not lie inside the usable byte range [0, 100):
the sub-page remainder was kept as a whole frame instead of being dropped. -/
theorem c2_partial_page_kept :
    E820Info.read 1 [⟨0, 100, 1, 0⟩] = some ⟨[(0, 0)]⟩ ∧
    ¬ (0 + 1) * 4096 ≤ 100 := by decide

/-- C7: a record whose `u64` end address wraps below its start (here base
2^64 - 1, length 2, non-usable type 2) makes `read` panic (the
`0..mid.len() - 1` loop bound underflows), modelled as `none` — instead of
yielding the empty inventory the claim requires for an input with no
usable-type record. -/
theorem c7_wrapped_record_panics :
    (⟨2 ^ 64 - 1, 2, 2, 0⟩ : MemoryRegion).region_type ≠ 1 ∧
    E820Info.read 1 [⟨2 ^ 64 - 1, 2, 2, 0⟩] = none := by decide

/-- C8: adjacent output ranges are not coalesced. Two usable records
[0, 4096) and [4096, 8192) produce the two distinct frame ranges (0, 0) and
(1, 1) — logically contiguous (0 + 1 = 1) yet kept separate. -/
theorem c8_adjacent_ranges_not_coalesced :
    E820Info.read 2 [⟨0, 4096, 1, 0⟩, ⟨4096, 4096, 1, 0⟩] = some ⟨[(0, 0), (1, 1)]⟩ ∧
    0 + 1 = 1 := by decide

/-- C9: all three functions of `src/kernel/process/user.rs` are
`unimplemented!()` stubs: each panics for every input (modelled as `none`)
and none produces an allocation, mapping, loaded code or mode switch. -/
theorem c9_process_user_stubs_panic :
    process_load_user_code_section = none ∧
    process_allocate_user_stack = none ∧
    ∀ code stack : ResourceHandle, process_switch_to_user code stack = none :=
  ⟨rfl, rfl, fun _ _ => rfl⟩

/-- C10: `MemoryRegion::end_addr` is `(base + length) mod 2^64` with no
overflow guard; every record whose true `base + length` reaches `2^64` gets
an end address strictly below its start address, and the first stage of
`E820Info::read` consumes exactly that wrapped value. -/
theorem c10_end_addr_wraps (r : MemoryRegion) (hb : r.base < 2 ^ 64)
    (hl : r.length < 2 ^ 64) (hw : 2 ^ 64 ≤ r.base + r.length) :
    r.end_addr = (r.base + r.length) % 2 ^ 64 ∧
    r.end_addr < r.start_addr ∧
    e820Triples 1 [r] = [(r.start_addr, r.end_addr, r.region_type)] := by
  have h64 : (2 : Nat) ^ 64 = 18446744073709551616 := by norm_num
  have h0 : 0 < r.length := by omega
  refine ⟨rfl, ?_, ?_⟩
  · simp only [MemoryRegion.end_addr, MemoryRegion.start_addr, h64] at *
    omega
  · simp [e820Triples, MemoryRegion.len, h0]

/-- Witness for C10 at the concrete record (base 2^64 - 1, length 2,
type 2): the end address wraps to 1. -/
theorem c10_end_addr_wraps_witness :
    (⟨2 ^ 64 - 1, 2, 2, 0⟩ : MemoryRegion).end_addr = (2 ^ 64 - 1 + 2) % 2 ^ 64 ∧
    (⟨2 ^ 64 - 1, 2, 2, 0⟩ : MemoryRegion).end_addr
      < (⟨2 ^ 64 - 1, 2, 2, 0⟩ : MemoryRegion).start_addr ∧
    e820Triples 1 [⟨2 ^ 64 - 1, 2, 2, 0⟩] = [(2 ^ 64 - 1, (2 ^ 64 - 1 + 2) % 2 ^ 64, 2)] :=
  c10_end_addr_wraps ⟨2 ^ 64 - 1, 2, 2, 0⟩ (by norm_num) (by norm_num) (by norm_num)

/-- C4: for a stack region resolving to start address S and length L bytes
(with S + L representable in 64 bits), the target stack pointer computed by
`switch_to_user` equals S + L. -/
theorem c4_switch_to_user_rsp_eq (resolve : ResourceHandle → VirtualMemoryRegion)
    (stack : ResourceHandle) (S L : Nat) (h : resolve stack = ⟨S, L⟩)
    (hfit : S + L < 2 ^ 64) :
    switch_to_user_rsp resolve stack = S + L := by
  rw [switch_to_user_rsp, h]
  exact Nat.mod_eq_of_lt hfit

/-- Witness for C4: a stack region at 4096 of length 8192 bytes gives the
stack pointer 4096 + 8192. -/
theorem c4_switch_to_user_rsp_eq_witness :
    switch_to_user_rsp (fun _ => ⟨4096, 8192⟩) 0 = 4096 + 8192 :=
  c4_switch_to_user_rsp_eq (fun _ => ⟨4096, 8192⟩) 0 4096 8192 rfl (by norm_num)

/-- C5: the STAR value written by `init` has the kernel code-segment selector
index times 8 in bits 32 to 47, the user stack-segment selector index times 8
minus 8 in bits 48 to 63, and all remaining bits zero (the value fits in 64
bits and its low 32 bits vanish), whenever the two `u16` products do not
overflow and the user index is at least 1. -/
theorem c5_star_msr_fields (kcs uss : Nat) (hk : kcs * 8 < 2 ^ 16)
    (hu1 : 1 ≤ uss) (hu : uss * 8 < 2 ^ 16) :
    star_value kcs uss % 2 ^ 32 = 0 ∧
    (star_value kcs uss >>> 32) % 2 ^ 16 = kcs * 8 ∧
    star_value kcs uss >>> 48 = uss * 8 - 8 ∧
    star_value kcs uss < 2 ^ 64 := by
  have h16 : (2 : Nat) ^ 16 = 65536 := by norm_num
  have key : star_value kcs uss = 2 ^ 48 * (uss * 8 - 8) + kcs * 8 * 2 ^ 32 := by
    have hb : (uss * 8 % 2 ^ 16 + (2 ^ 16 - 8)) % 2 ^ 16 = uss * 8 - 8 := by
      rw [Nat.mod_eq_of_lt hu]
      rw [h16] at hu ⊢
      omega
    have hbound : kcs * 8 * 2 ^ 32 < 2 ^ 48 := by
      calc kcs * 8 * 2 ^ 32 < 2 ^ 16 * 2 ^ 32 :=
            (Nat.mul_lt_mul_right (by norm_num)).mpr hk
        _ = 2 ^ 48 := by norm_num
    rw [star_value, Nat.mod_eq_of_lt hk, hb, Nat.shiftLeft_eq, Nat.shiftLeft_eq,
      Nat.lor_comm, Nat.mul_comm (uss * 8 - 8) (2 ^ 48)]
    exact (Nat.mul_add_lt_is_or hbound _).symm
  rw [h16] at hk hu
  refine ⟨?_, ?_, ?_, ?_⟩ <;>
    · simp only [key, Nat.shiftRight_eq_div_pow]
      norm_num
      omega

/-- Witness for C5 at kernel index 1 and user index 3: bits 32 to 47 hold 8
and bits 48 to 63 hold 16. -/
theorem c5_star_msr_fields_witness :
    star_value 1 3 % 2 ^ 32 = 0 ∧
    (star_value 1 3 >>> 32) % 2 ^ 16 = 1 * 8 ∧
    star_value 1 3 >>> 48 = 3 * 8 - 8 ∧
    star_value 1 3 < 2 ^ 64 :=
  c5_star_msr_fields 1 3 (by norm_num) (by norm_num) (by norm_num)

/-- C6: a single fully usable record [0, N * 4096) (N at least 1, length
representable in 64 bits) yields exactly the one frame range (0, N - 1), and
`num_phys_pages` on that inventory is N. -/
theorem c6_single_usable_record (N : Nat) (h1 : 1 ≤ N) (hfit : N * 4096 < 2 ^ 64) :
    E820Info.read 1 [⟨0, N * 4096, 1, 0⟩] = some ⟨[(0, N - 1)]⟩ ∧
    E820Info.num_phys_pages ⟨[(0, N - 1)]⟩ = N := by
  have hfit' : N * 4096 < 18446744073709551616 := by norm_num at hfit; exact hfit
  have hL0 : 0 < N * 4096 := by positivity
  have hne : N * 4096 ≠ 0 := hL0.ne'
  have h_triples : e820Triples 1 [⟨0, N * 4096, 1, 0⟩] = [(0, N * 4096, 1)] := by
    simp [e820Triples, MemoryRegion.len, MemoryRegion.start_addr, MemoryRegion.end_addr,
      hL0, hfit']
  have h_eps : endpointsOf [(0, N * 4096, 1)] = [0, N * 4096] := by
    simp [endpointsOf, setInsert, hne]
  have h_pieces : collectPieces [0, N * 4096] [(0, N * 4096, 1)] = some [(0, N * 4096, 1)] := by
    simp [collectPieces, regionPieces]
  have h_sort : sortByStart [(0, N * 4096, 1)] = [(0, N * 4096, 1)] := by
    simp [sortByStart, insertByStart]
  have h_drain : drainLoop [0, N * 4096] [(0, N * 4096, 1)] = [(0, N * 4096 - 1)] := by
    simp [drainLoop, hL0]
  constructor
  · rw [E820Info.read, h_triples, h_eps, h_pieces]
    simp only [h_sort, h_drain]
    simp [alignUp4K, alignDown4K]
    omega
  · simp [E820Info.num_phys_pages]
    omega

/-- Witness for C6 at N = 3: the record [0, 12288) gives the single frame
range (0, 2) and 3 physical pages. -/
theorem c6_single_usable_record_witness :
    E820Info.read 1 [⟨0, 3 * 4096, 1, 0⟩] = some ⟨[(0, 3 - 1)]⟩ ∧
    E820Info.num_phys_pages ⟨[(0, 3 - 1)]⟩ = 3 :=
  c6_single_usable_record 3 (by norm_num) (by norm_num)

/-! Helper lemmas for the ordering invariant of the reconciled ranges
(claim C3): the endpoint set is strictly ascending, every fragment spans a
pair of consecutive endpoints, and the final loop emits at most one range per
endpoint, in endpoint order. -/

theorem mem_setInsert {y x : Nat} : ∀ {l : List Nat}, y ∈ setInsert x l ↔ y = x ∨ y ∈ l := by
  intro l
  induction l with
  | nil => simp [setInsert]
  | cons z zs ih =>
    simp only [setInsert]
    split
    · simp [or_comm, or_assoc, List.mem_cons]
    · split
      · rename_i hlt heq
        subst heq
        simp [List.mem_cons]
      · simp [List.mem_cons, ih]
        tauto

theorem setInsert_sorted {x : Nat} : ∀ {l : List Nat}, l.Pairwise (· < ·) →
    (setInsert x l).Pairwise (· < ·) := by
  intro l
  induction l with
  | nil => simp [setInsert]
  | cons z zs ih =>
    intro h
    obtain ⟨hz, hzs⟩ := List.pairwise_cons.mp h
    simp only [setInsert]
    split
    · rename_i hxz
      refine List.pairwise_cons.mpr ⟨?_, h⟩
      intro a ha
      rcases List.mem_cons.mp ha with rfl | ha
      · exact hxz
      · exact hxz.trans (hz a ha)
    · split
      · exact h
      · rename_i hnlt hne
        have hzx : z < x := by omega
        refine List.pairwise_cons.mpr ⟨?_, ih hzs⟩
        intro a ha
        rcases mem_setInsert.mp ha with rfl | ha
        · exact hzx
        · exact hz a ha

theorem endpointsOf_sorted (info : List (Nat × Nat × Nat)) :
    (endpointsOf info).Pairwise (· < ·) := by
  have aux : ∀ (l : List (Nat × Nat × Nat)) (acc : List Nat), acc.Pairwise (· < ·) →
      (l.foldl (fun s t => setInsert t.2.1 (setInsert t.1 s)) acc).Pairwise (· < ·) := by
    intro l
    induction l with
    | nil => intro acc h; simpa using h
    | cons t ts ih =>
      intro acc h
      simp only [List.foldl_cons]
      exact ih _ (setInsert_sorted (setInsert_sorted h))
  exact aux info [] (by simp)

theorem zip_tail_mem {l : List Nat} {a b : Nat} (h : (a, b) ∈ l.zip l.tail) :
    a ∈ l ∧ b ∈ l := by
  have h2 := List.of_mem_zip h
  exact ⟨h2.1, List.mem_of_mem_tail h2.2⟩

theorem consecutive_in_sorted : ∀ {l : List Nat}, l.Pairwise (· < ·) → ∀ {a b : Nat},
    (a, b) ∈ l.zip l.tail → ∀ q ∈ l, q ≤ a ∨ b ≤ q := by
  intro l
  induction l with
  | nil => intro _ a b hab; simp at hab
  | cons x xs ih =>
    intro hs a b hab q hq
    cases xs with
    | nil => simp at hab
    | cons y ys =>
      obtain ⟨hx, hrest⟩ := List.pairwise_cons.mp hs
      simp only [List.tail_cons, List.zip_cons_cons, List.mem_cons] at hab
      rcases hab with heq | hmem
      · obtain ⟨rfl, rfl⟩ := Prod.mk.injEq .. |>.mp heq
        rcases List.mem_cons.mp hq with rfl | hq2
        · exact Or.inl le_rfl
        · rcases List.mem_cons.mp hq2 with rfl | hq3
          · exact Or.inr le_rfl
          · obtain ⟨hy, _⟩ := List.pairwise_cons.mp hrest
            exact Or.inr (hy q hq3).le
      · rcases List.mem_cons.mp hq with rfl | hq2
        · have ha : a ∈ y :: ys := (zip_tail_mem hmem).1
          exact Or.inl (hx a ha).le
        · exact ih hrest hmem q hq2

theorem consecutive_filter_interval {l : List Nat} (hs : l.Pairwise (· < ·))
    (lo hi : Nat) {a b : Nat}
    (hab : (a, b) ∈ (l.filter fun p => decide (lo ≤ p) && decide (p ≤ hi)).zip
      (l.filter fun p => decide (lo ≤ p) && decide (p ≤ hi)).tail) :
    ∀ q ∈ l, ¬ (a < q ∧ q < b) := by
  intro q hq hcon
  have hl' := hs.filter (fun p => decide (lo ≤ p) && decide (p ≤ hi))
  have hmem := zip_tail_mem hab
  have ha' := List.mem_filter.mp hmem.1
  have hb' := List.mem_filter.mp hmem.2
  simp only [Bool.and_eq_true, decide_eq_true_eq] at ha' hb'
  have hqf : q ∈ l.filter fun p => decide (lo ≤ p) && decide (p ≤ hi) := by
    refine List.mem_filter.mpr ⟨hq, ?_⟩
    simp only [Bool.and_eq_true, decide_eq_true_eq]
    omega
  rcases consecutive_in_sorted hl' hab q hqf with h | h <;> omega

theorem regionPieces_fragment {endpoints : List Nat} {t u : Nat × Nat × Nat}
    {ps : List (Nat × Nat × Nat)} (h : regionPieces endpoints t = some ps) (hu : u ∈ ps) :
    (u.1, u.2.1) ∈ (endpoints.filter fun p => decide (t.1 ≤ p) && decide (p ≤ t.2.1)).zip
      (endpoints.filter fun p => decide (t.1 ≤ p) && decide (p ≤ t.2.1)).tail := by
  unfold regionPieces at h
  split at h
  · exact absurd h (by simp)
  · rename_i m ms hm
    obtain rfl := Option.some.inj h
    obtain ⟨pq, hpq, rfl⟩ := List.mem_map.mp hu
    rw [hm, List.tail_cons]
    simpa using hpq

theorem collectPieces_mem {endpoints : List Nat} :
    ∀ {info pieces : List (Nat × Nat × Nat)},
      collectPieces endpoints info = some pieces → ∀ u ∈ pieces,
        ∃ t ∈ info, ∃ ps, regionPieces endpoints t = some ps ∧ u ∈ ps := by
  intro info
  induction info with
  | nil =>
    intro pieces h u hu
    obtain rfl := Option.some.inj h
    exact absurd hu (by simp)
  | cons t ts ih =>
    intro pieces h u hu
    unfold collectPieces at h
    split at h
    · rename_i ps rest hps hrest
      obtain rfl := Option.some.inj h
      rcases List.mem_append.mp hu with h1 | h2
      · exact ⟨t, List.mem_cons_self t ts, ps, hps, h1⟩
      · obtain ⟨t', ht', ps', hps', hu'⟩ := ih hrest u h2
        exact ⟨t', List.mem_cons_of_mem t ht', ps', hps', hu'⟩
    · exact absurd h (by simp)

theorem mem_insertByStart {u t : Nat × Nat × Nat} :
    ∀ {l : List (Nat × Nat × Nat)}, u ∈ insertByStart t l ↔ u = t ∨ u ∈ l := by
  intro l
  induction l with
  | nil => simp [insertByStart]
  | cons v vs ih =>
    simp only [insertByStart]
    split
    · simp only [List.mem_cons, ih]
      tauto
    · simp [List.mem_cons]

theorem mem_sortByStart {u : Nat × Nat × Nat} :
    ∀ {l : List (Nat × Nat × Nat)}, u ∈ sortByStart l ↔ u ∈ l := by
  intro l
  induction l with
  | nil => simp [sortByStart]
  | cons v vs ih =>
    simp only [sortByStart, List.foldr_cons] at *
    rw [mem_insertByStart, ih, List.mem_cons]

theorem drainLoop_start_mem :
    ∀ (ps : List Nat) (info : List (Nat × Nat × Nat)) (r : Nat × Nat),
      r ∈ drainLoop ps info → r.1 ∈ ps := by
  intro ps
  induction ps with
  | nil => intro info r hr; simp [drainLoop] at hr
  | cons p ps ih =>
    intro info r hr
    rw [drainLoop] at hr
    rcases List.mem_append.mp hr with h1 | h2
    · split at h1
      · exact absurd h1 (by simp)
      · rename_i t ts hm
        split at h1
        · have hmem : r = (t.1, t.2.1 - 1) := by simpa using h1
          have ht : t ∈ info.filter fun t => t.1 == p := by
            rw [hm]; exact List.mem_cons_self t ts
          have := (List.mem_filter.mp ht).2
          have ht1 : t.1 = p := by simpa using this
          subst hmem
          simp [ht1]
        · exact absurd h1 (by simp)
    · exact List.mem_cons_of_mem p (ih _ r h2)

theorem drainLoop_pairwise :
    ∀ (ps : List Nat) (info : List (Nat × Nat × Nat)), ps.Pairwise (· < ·) →
      (∀ t ∈ info, ∀ q ∈ ps, ¬ (t.1 < q ∧ q < t.2.1)) →
      (drainLoop ps info).Pairwise fun a b => a.2 < b.1 := by
  intro ps
  induction ps with
  | nil => intro info _ _; simp [drainLoop]
  | cons p ps ih =>
    intro info hsort hins
    obtain ⟨hp, hps⟩ := List.pairwise_cons.mp hsort
    rw [drainLoop]
    refine List.pairwise_append.mpr ⟨?_, ?_, ?_⟩
    · split
      · exact List.Pairwise.nil
      · split
        · simp
        · exact List.Pairwise.nil
    · refine ih _ hps ?_
      intro t ht q hq
      exact hins t (List.mem_filter.mp ht).1 q (List.mem_cons_of_mem p hq)
    · intro a ha b hb
      split at ha
      · exact absurd ha (by simp)
      · rename_i t ts hm
        split at ha
        · rename_i hall
          have ha' : a = (t.1, t.2.1 - 1) := by simpa using ha
          have ht : t ∈ info.filter fun t => t.1 == p := by
            rw [hm]; exact List.mem_cons_self t ts
          have ht_info : t ∈ info := (List.mem_filter.mp ht).1
          have ht1 : t.1 = p := by simpa using (List.mem_filter.mp ht).2
          have hlt : t.1 < t.2.1 := by
            have := List.all_eq_true.mp hall t (List.mem_cons_self t ts)
            simp only [Bool.and_eq_true, decide_eq_true_eq] at this
            exact this.1
          have hb1 : b.1 ∈ ps := drainLoop_start_mem ps _ b hb
          have hpb : p < b.1 := hp b.1 hb1
          have hnot := hins t ht_info b.1 (List.mem_cons_of_mem p hb1)
          subst ha'
          simp only []
          omega
        · exact absurd ha (by simp)

/-- C3: whenever `E820Info::read` completes, the stored frame ranges are
strictly ascending by start and pairwise non-overlapping (the end of each
range is below the start of every later one), and every stored range has
start_frame at most end_frame. -/
theorem c3_ranges_sorted_disjoint (count : Nat) (table : List MemoryRegion)
    (inv : E820Info) (h : E820Info.read count table = some inv) :
    inv.regions.Pairwise (fun a b => a.1 < b.1 ∧ a.2 < b.1) ∧
    ∀ r ∈ inv.regions, r.1 ≤ r.2 := by
  simp only [E820Info.read] at h
  split at h
  · exact absurd h (by simp)
  · rename_i pieces hC
    obtain rfl := Option.some.inj h
    have hsort := endpointsOf_sorted (e820Triples count table)
    have hins : ∀ t ∈ sortByStart pieces, ∀ q ∈ endpointsOf (e820Triples count table),
        ¬ (t.1 < q ∧ q < t.2.1) := by
      intro t ht q hq
      obtain ⟨rec, hrec, ps, hps, htps⟩ := collectPieces_mem hC t (mem_sortByStart.mp ht)
      exact consecutive_filter_interval hsort _ _ (regionPieces_fragment hps htps) q hq
    have hd := drainLoop_pairwise (endpointsOf (e820Triples count table))
      (sortByStart pieces) hsort hins
    constructor
    · have hm : ((drainLoop (endpointsOf (e820Triples count table)) (sortByStart pieces)).map
          fun r => (alignUp4K r.1 / 4096, alignDown4K r.2 / 4096)).Pairwise
          fun a b => a.2 < b.1 := by
        refine hd.map _ ?_
        intro a b hab
        simp only [alignUp4K, alignDown4K, Nat.mul_div_cancel _ (by norm_num : (0:Nat) < 4096)]
        omega
      have hf := hm.filter (fun r => decide (r.1 ≤ r.2))
      refine List.Pairwise.imp_of_mem ?_ hf
      intro a b ha hb hab
      have haf := List.of_mem_filter ha
      simp only [decide_eq_true_eq] at haf
      exact ⟨by omega, hab⟩
    · intro r hr
      have := List.of_mem_filter hr
      simpa using this

/-- Witness for C3 at two usable records [0, 4096) and [8192, 12288): the
output [(0, 0), (2, 2)] is ascending, non-overlapping, and each range has
start at most end. -/
theorem c3_ranges_sorted_disjoint_witness :
    (E820Info.mk [(0, 0), (2, 2)]).regions.Pairwise (fun a b => a.1 < b.1 ∧ a.2 < b.1) ∧
    ∀ r ∈ (E820Info.mk [(0, 0), (2, 2)]).regions, r.1 ≤ r.2 :=
  c3_ranges_sorted_disjoint 2 [⟨0, 4096, 1, 0⟩, ⟨8192, 4096, 1, 0⟩] ⟨[(0, 0), (2, 2)]⟩
    (by decide)
